import Mathlib

/-!
Verification of the blog-post approval workflow (`src/lib.rs`).

The repository holds two components:
* `oop` — a dynamic-state document: `Post` owns an `Option<Box<dyn State>>`
  handle and a `String` content; behaviour is delegated to the current state.
* `rust_way` — a typestate family: one struct per lifecycle stage, transitions
  consume the value and return the next stage's value.

Both are shallowly embedded below, definition for definition.
-/

/-- The public mutating operations shared by both components (the vocabulary
of call sequences; `content()` is a read-only observation, not an `Op`). -/
inductive Op
  | add_text (t : String)
  | request_review
  | approve
  | reject
deriving DecidableEq, Repr

namespace oop

/-- The three concrete implementors of the `State` trait.  `PendingReview`
carries its `approvals: RefCell<u8>` field; we model the `u8` as a `Nat`
and make the `+= 1` wrap modulo `2^8` where it would overflow. -/
inductive State
  | Draft
  | PendingReview (approvals : Nat)
  | Published
deriving DecidableEq, Repr

/-- `oop::Post`: `state: Option<Box<dyn State>>`, `content: String`. -/
structure Post where
  state : Option State
  content : String
deriving DecidableEq, Repr

/-- `State::request_review`: `Draft` allocates `PendingReview { approvals: 0 }`;
`PendingReview` and `Published` return `self`. -/
def State.request_review : State → State
  | State.Draft => State.PendingReview 0
  | State.PendingReview a => State.PendingReview a
  | State.Published => State.Published

/-- `State::approve`: `Draft` and `Published` return `self`; `PendingReview`
increments `approvals` (a `u8`, hence the `% 2^8`) and moves to `Published`
exactly when the new count exceeds 1. -/
def State.approve : State → State
  | State.Draft => State.Draft
  | State.PendingReview a =>
      if (a + 1) % 256 > 1 then State.Published
      else State.PendingReview ((a + 1) % 256)
  | State.Published => State.Published

/-- `State::reject`: `PendingReview` returns a fresh `Draft`; `Draft` and
`Published` return `self`. -/
def State.reject : State → State
  | State.Draft => State.Draft
  | State.PendingReview _ => State.Draft
  | State.Published => State.Published

/-- `State::content`: the trait default returns `""`; only `Published`
overrides it to return the post's stored content. -/
def State.content : State → String → String
  | State.Published, c => c
  | State.Draft, _ => ""
  | State.PendingReview _, _ => ""

/-- `State::add_text`: the trait default returns the current content
unchanged; only `Draft` overrides it to append the new text. -/
def State.add_text : State → String → String → String
  | State.Draft, cur, t => cur ++ t
  | State.PendingReview _, cur, _ => cur
  | State.Published, cur, _ => cur

/-- `Post::new()`: `Draft` state, empty content. -/
def Post.new : Post := { state := some State.Draft, content := "" }

/-- `Post::add_text`: calls `unwrap()` on the state handle — `none` models
the panic — then replaces the content by the state's `add_text` result. -/
def Post.add_text (p : Post) (t : String) : Option Post :=
  match p.state with
  | some s => some { p with content := s.add_text p.content t }
  | none => none

/-- `Post::content`: calls `unwrap()` on the state handle — `none` models
the panic — and delegates to the state's `content`. -/
def Post.content? (p : Post) : Option String :=
  match p.state with
  | some s => some (s.content p.content)
  | none => none

/-- `Post::request_review`: `if let Some(s) = self.state.take()` — when the
handle is `none` nothing happens. -/
def Post.request_review (p : Post) : Post :=
  match p.state with
  | some s => { p with state := some s.request_review }
  | none => p

/-- `Post::approve`, same take-and-replace shape. -/
def Post.approve (p : Post) : Post :=
  match p.state with
  | some s => { p with state := some s.approve }
  | none => p

/-- `Post::reject`, same take-and-replace shape. -/
def Post.reject (p : Post) : Post :=
  match p.state with
  | some s => { p with state := some s.reject }
  | none => p

/-- One public mutating call on an `oop::Post`; `none` models a panic
(`add_text` unwraps the state handle). -/
def Post.step (p : Post) : Op → Option Post
  | Op.add_text t => p.add_text t
  | Op.request_review => some p.request_review
  | Op.approve => some p.approve
  | Op.reject => some p.reject

/-- Run a sequence of public calls left to right. -/
def Post.run (p : Post) : List Op → Option Post
  | [] => some p
  | op :: ops => (p.step op).bind (fun q => q.run ops)

/-- States reachable from `Post::new()` by public calls. -/
def Reachable (p : Post) : Prop := ∃ ops : List Op, Post.new.run ops = some p

end oop

namespace rust_way

/-- `rust_way::Post` (the published document). -/
structure Post where
  content : String
deriving DecidableEq, Repr

/-- `rust_way::DraftPost`. -/
structure DraftPost where
  content : String
deriving DecidableEq, Repr

/-- `rust_way::PendingReviewPost`. -/
structure PendingReviewPost where
  content : String
deriving DecidableEq, Repr

/-- `rust_way::ApprovedPendingReviewPost`. -/
structure ApprovedPendingReviewPost where
  content : String
deriving DecidableEq, Repr

/-- `Post::new()` returns a `DraftPost` with empty content. -/
def Post.new : DraftPost := { content := "" }

/-- `DraftPost::add_text`: `self.content.push_str(text)`. -/
def DraftPost.add_text (p : DraftPost) (t : String) : DraftPost :=
  { content := p.content ++ t }

/-- `DraftPost::request_review`: consumes `self`, keeps the content. -/
def DraftPost.request_review (p : DraftPost) : PendingReviewPost :=
  { content := p.content }

/-- `PendingReviewPost::approve`: consumes `self`, keeps the content. -/
def PendingReviewPost.approve (p : PendingReviewPost) : ApprovedPendingReviewPost :=
  { content := p.content }

/-- `PendingReviewPost::reject`: consumes `self`, keeps the content. -/
def PendingReviewPost.reject (p : PendingReviewPost) : DraftPost :=
  { content := p.content }

/-- `ApprovedPendingReviewPost::approve`: consumes `self`, keeps the content. -/
def ApprovedPendingReviewPost.approve (p : ApprovedPendingReviewPost) : Post :=
  { content := p.content }

/-- `ApprovedPendingReviewPost::reject`: consumes `self`, keeps the content. -/
def ApprovedPendingReviewPost.reject (p : ApprovedPendingReviewPost) : DraftPost :=
  { content := p.content }

/-- A typestate document at an arbitrary lifecycle stage (the disjoint union
of the four stage types), used to talk about call sequences. -/
inductive RW
  | draft (p : DraftPost)
  | pending (p : PendingReviewPost)
  | approved (p : ApprovedPendingReviewPost)
  | published (p : Post)
deriving DecidableEq, Repr

/-- One public call on a typestate value.  `none` means the call is not
expressible against the current stage's type (a compile error in the source). -/
def RW.step : RW → Op → Option RW
  | RW.draft d, Op.add_text t => some (RW.draft (d.add_text t))
  | RW.draft d, Op.request_review => some (RW.pending d.request_review)
  | RW.pending p, Op.approve => some (RW.approved p.approve)
  | RW.pending p, Op.reject => some (RW.draft p.reject)
  | RW.approved p, Op.approve => some (RW.published p.approve)
  | RW.approved p, Op.reject => some (RW.draft p.reject)
  | _, _ => none

/-- Run a sequence of calls on a typestate value, failing on any call the
current stage's type does not expose. -/
def RW.run (s : RW) : List Op → Option RW
  | [] => some s
  | op :: ops => (s.step op).bind (fun q => q.run ops)

end rust_way

section SimpleOps

open oop

/-- C6: `content()` returns the actual stored content exactly in `Published`;
in `Draft` and in `PendingReview` at any count it returns `""`; no error. -/
theorem oop_content_published_only (c : String) (a : Nat) :
    (Post.mk (some State.Published) c).content? = some c ∧
    (Post.mk (some State.Draft) c).content? = some "" ∧
    (Post.mk (some (State.PendingReview a)) c).content? = some "" :=
  ⟨rfl, rfl, rfl⟩

/-- C5: `add_text` appends exactly in `Draft`; in `PendingReview` at any
count and in `Published` it leaves the post (content included) unchanged
and raises no error. -/
theorem oop_add_text_draft_only (c t : String) (a : Nat) :
    (Post.mk (some State.Draft) c).add_text t
      = some (Post.mk (some State.Draft) (c ++ t)) ∧
    (Post.mk (some (State.PendingReview a)) c).add_text t
      = some (Post.mk (some (State.PendingReview a)) c) ∧
    (Post.mk (some State.Published) c).add_text t
      = some (Post.mk (some State.Published) c) :=
  ⟨rfl, rfl, rfl⟩

/-- C7: `request_review()` sends `Draft` to `PendingReview` with count 0 and
the content untouched, and is the identity on `PendingReview` at any count
and on `Published`. -/
theorem oop_request_review_behavior (c : String) (a : Nat) :
    (Post.mk (some State.Draft) c).request_review
      = Post.mk (some (State.PendingReview 0)) c ∧
    (Post.mk (some (State.PendingReview a)) c).request_review
      = Post.mk (some (State.PendingReview a)) c ∧
    (Post.mk (some State.Published) c).request_review
      = Post.mk (some State.Published) c :=
  ⟨rfl, rfl, rfl⟩

end SimpleOps

section ApproveReject

open oop

/-- C3: while the counter has room in its `u8` (`a + 1 < 256`, true of every
reachable count, which is at most 1), `approve()` in `PendingReview`
increments the counter, moving to `Published` exactly when the new count
exceeds 1 and otherwise staying in `PendingReview` with the incremented
count; in `Draft` and in `Published` it leaves the post unchanged. -/
theorem oop_approve_behavior (c : String) (a : Nat) (h : a + 1 < 256) :
    (Post.mk (some (State.PendingReview a)) c).approve
      = Post.mk (some (if a + 1 > 1 then State.Published
                       else State.PendingReview (a + 1))) c ∧
    (Post.mk (some State.Draft) c).approve = Post.mk (some State.Draft) c ∧
    (Post.mk (some State.Published) c).approve
      = Post.mk (some State.Published) c := by
  refine ⟨?_, rfl, rfl⟩
  simp [Post.approve, State.approve, Nat.mod_eq_of_lt h]

/-- Witness for `oop_approve_behavior` at count 1: the hypothesis holds and
a second approval publishes the post. -/
theorem oop_approve_behavior_witness :
    1 + 1 < 256 ∧
    (Post.mk (some (State.PendingReview 1)) "x").approve
      = Post.mk (some State.Published) "x" :=
  ⟨by decide, by simpa using (oop_approve_behavior "x" 1 (by decide)).1⟩

/-- C4: `reject()` in `PendingReview` at any count returns the post to
`Draft` with the content untouched and the approval progress gone, after
which `request_review(); approve(); approve()` publishes that same content;
in `Draft` and in `Published`, `reject()` leaves the post unchanged. -/
theorem oop_reject_behavior (c : String) (a : Nat) :
    (Post.mk (some (State.PendingReview a)) c).reject
      = Post.mk (some State.Draft) c ∧
    (Post.mk (some (State.PendingReview a)) c).reject.request_review.approve.approve
      = Post.mk (some State.Published) c ∧
    (Post.mk (some State.Draft) c).reject = Post.mk (some State.Draft) c ∧
    (Post.mk (some State.Published) c).reject
      = Post.mk (some State.Published) c :=
  ⟨rfl, rfl, rfl, rfl⟩

end ApproveReject

namespace oop

/-- The step invariant of the dynamic-state component: the state handle is
always present, and a retained `PendingReview` count never exceeds 1. -/
def PostInv (p : Post) : Prop :=
  match p.state with
  | some (State.PendingReview a) => a ≤ 1
  | some _ => True
  | none => False

theorem postInv_new : PostInv Post.new := trivial

theorem postInv_step (p : Post) (op : Op) (h : PostInv p) :
    ∃ q, p.step op = some q ∧ PostInv q := by
  obtain ⟨st, c⟩ := p
  match st with
  | none => exact absurd h (by simp [PostInv])
  | some s =>
    cases s with
    | Draft => cases op <;>
        exact ⟨_, rfl, by simp [PostInv, Post.add_text, Post.request_review,
          Post.approve, Post.reject, State.add_text, State.request_review,
          State.approve, State.reject]⟩
    | PendingReview a =>
      cases op with
      | add_text t => exact ⟨_, rfl, by simpa [PostInv, Post.add_text] using h⟩
      | request_review => exact ⟨_, rfl, by
          simpa [PostInv, Post.request_review, State.request_review] using h⟩
      | approve =>
        refine ⟨_, rfl, ?_⟩
        simp only [Post.step, Post.approve, State.approve]
        by_cases hgt : (a + 1) % 256 > 1
        · simp [PostInv, hgt]
        · simp only [hgt, if_false]
          simpa [PostInv] using Nat.le_of_not_lt hgt
      | reject => exact ⟨_, rfl, by simp [PostInv, Post.reject, State.reject]⟩
    | Published => cases op <;>
        exact ⟨_, rfl, by simp [PostInv, Post.add_text, Post.request_review,
          Post.approve, Post.reject, State.add_text, State.request_review,
          State.approve, State.reject]⟩

theorem postInv_run (ops : List Op) :
    ∀ p : Post, PostInv p → ∃ q, p.run ops = some q ∧ PostInv q := by
  induction ops with
  | nil => exact fun p h => ⟨p, rfl, h⟩
  | cons op ops ih =>
    intro p h
    obtain ⟨q, hq, hinv⟩ := postInv_step p op h
    obtain ⟨r, hr, hinvr⟩ := ih q hinv
    exact ⟨r, by simp [Post.run, hq, hr], hinvr⟩

theorem reachable_postInv {p : Post} (h : Reachable p) : PostInv p := by
  obtain ⟨ops, hops⟩ := h
  obtain ⟨q, hq, hinv⟩ := postInv_run ops Post.new postInv_new
  rw [hops] at hq
  exact Option.some_injective _ hq ▸ hinv

end oop

section Invariants

open oop

/-- C9: on every post reachable from `Post::new()`, a current
`PendingReview` stage carries an approval count of at most 1, so the `u8`
counter can never overflow. -/
theorem oop_counter_at_most_one (p : Post) (a : Nat)
    (hr : Reachable p) (hs : p.state = some (State.PendingReview a)) :
    a ≤ 1 := by
  have h := reachable_postInv hr
  unfold PostInv at h
  rw [hs] at h
  exact h

/-- Witness for `oop_counter_at_most_one`: after one `request_review()` the
post is in `PendingReview` with count 0, and 0 ≤ 1. -/
theorem oop_counter_at_most_one_witness :
    Reachable (Post.mk (some (State.PendingReview 0)) "") ∧
    Post.new.run [Op.request_review]
      = some (Post.mk (some (State.PendingReview 0)) "") ∧
    (0 : Nat) ≤ 1 :=
  ⟨⟨[Op.request_review], rfl⟩, rfl,
    oop_counter_at_most_one _ 0 ⟨[Op.request_review], rfl⟩ rfl⟩

/-- C10: every sequence of public calls from `Post::new()` runs to
completion (no `unwrap` panics) and leaves the state handle holding `some`
state — the take-and-replace transitions never strand the post stateless. -/
theorem oop_state_never_none (ops : List Op) :
    ∃ p : Post, Post.new.run ops = some p ∧ p.state.isSome = true := by
  obtain ⟨q, hq, hinv⟩ := postInv_run ops Post.new postInv_new
  refine ⟨q, hq, ?_⟩
  unfold PostInv at hinv
  match h : q.state with
  | some s => rfl
  | none => rw [h] at hinv; exact absurd hinv (by simp)

end Invariants

namespace rust_way

/-- The stage correspondence between the two components: a typestate value
corresponds to the dynamic-state post with the same content whose stage is
`Draft` / `PendingReview 0` / `PendingReview 1` / `Published` respectively. -/
def RW.toOop : RW → oop.Post
  | RW.draft d => oop.Post.mk (some oop.State.Draft) d.content
  | RW.pending p => oop.Post.mk (some (oop.State.PendingReview 0)) p.content
  | RW.approved p => oop.Post.mk (some (oop.State.PendingReview 1)) p.content
  | RW.published p => oop.Post.mk (some oop.State.Published) p.content

theorem step_sim (s : RW) (op : Op) (q : RW) (h : s.step op = some q) :
    s.toOop.step op = some q.toOop := by
  cases s <;> cases op <;>
    simp only [RW.step, Option.some.injEq, reduceCtorEq] at h <;>
    subst h <;> rfl

theorem run_sim (ops : List Op) :
    ∀ s q : RW, s.run ops = some q → s.toOop.run ops = some q.toOop := by
  induction ops with
  | nil =>
    intro s q h
    simp only [RW.run, Option.some.injEq] at h
    subst h
    rfl
  | cons op ops ih =>
    intro s q h
    simp only [RW.run, Option.bind_eq_some] at h
    obtain ⟨r, hr, hrun⟩ := h
    simp [oop.Post.run, step_sim s op r hr, ih r q hrun]

end rust_way

section Refinement

/-- C1: the two components are functionally equivalent on the sequences both
interfaces can express: whenever a call sequence drives the typestate
document from `Post::new()` to `Published` with some content, the same
sequence drives the dynamic-state document from `Post::new()` to
`Published`, and `content()` observes that same string in both. -/
theorem oop_rw_published_equiv (ops : List Op) (q : rust_way.Post)
    (h : rust_way.RW.run (rust_way.RW.draft rust_way.Post.new) ops
          = some (rust_way.RW.published q)) :
    ∃ p : oop.Post, oop.Post.new.run ops = some p ∧
      p.state = some oop.State.Published ∧
      p.content? = some q.content := by
  have hs := rust_way.run_sim ops _ _ h
  exact ⟨_, hs, rfl, rfl⟩

/-- Witness for `oop_rw_published_equiv`: the demo sequence
`add_text "a"; request_review(); approve(); approve()` publishes `"a"` in
the typestate component, and the dynamic-state component then also sits in
`Published` observing `"a"`. -/
theorem oop_rw_published_equiv_witness :
    rust_way.RW.run (rust_way.RW.draft rust_way.Post.new)
        [Op.add_text "a", Op.request_review, Op.approve, Op.approve]
      = some (rust_way.RW.published (rust_way.Post.mk "a")) ∧
    ∃ p : oop.Post,
      oop.Post.new.run [Op.add_text "a", Op.request_review, Op.approve, Op.approve]
        = some p ∧
      p.state = some oop.State.Published ∧
      p.content? = some (rust_way.Post.mk "a").content :=
  ⟨by decide, oop_rw_published_equiv _ _ (by decide)⟩

end Refinement

namespace rust_way

theorem foldl_add_text_content (ts : List String) :
    ∀ d : DraftPost,
      (ts.foldl DraftPost.add_text d).content
        = ts.foldl (fun r s => r ++ s) d.content := by
  induction ts with
  | nil => intro d; rfl
  | cons t ts ih => intro d; exact ih (d.add_text t)

end rust_way

section Typestate

open rust_way

/-- C8: in the typestate component, `add_text` accumulates by plain
concatenation in call order, every transition preserves the content exactly
(so `request_review` then `reject` is the identity on a `DraftPost`), and
`content()` on the `Published` value obtained from `new()` after a list of
`add_text` calls followed by `request_review(); approve(); approve()` is
exactly the concatenation of the added texts. -/
theorem rw_content_concatenation (d : DraftPost) (t : String)
    (pr : PendingReviewPost) (ap : ApprovedPendingReviewPost)
    (ts : List String) :
    (d.add_text t).content = d.content ++ t ∧
    d.request_review.content = d.content ∧
    pr.approve.content = pr.content ∧
    pr.reject.content = pr.content ∧
    ap.approve.content = ap.content ∧
    ap.reject.content = ap.content ∧
    d.request_review.reject = d ∧
    ((ts.foldl DraftPost.add_text Post.new).request_review.approve.approve).content
      = String.join ts := by
  refine ⟨rfl, rfl, rfl, rfl, rfl, rfl, rfl, ?_⟩
  show (ts.foldl DraftPost.add_text Post.new).content = String.join ts
  rw [foldl_add_text_content]
  rfl

end Typestate

namespace oop

/-- The call sequence contains a `request_review` later followed by two
`approve`s, with no `reject` strictly between the `request_review` and the
second `approve`. -/
def ApprovalPattern (ops : List Op) : Prop :=
  ∃ l₁ l₂ l₃ l₄ : List Op,
    ops = l₁ ++ Op.request_review :: (l₂ ++ Op.approve :: (l₃ ++ Op.approve :: l₄)) ∧
    Op.reject ∉ l₂ ∧ Op.reject ∉ l₃

/-- Some non-empty text was added by an `add_text` call issued while the
post was in `Draft`. -/
def DraftTextAdded (ops : List Op) : Prop :=
  ∃ (l₁ : List Op) (t : String) (l₂ : List Op) (q : Post),
    ops = l₁ ++ Op.add_text t :: l₂ ∧ t ≠ "" ∧
    Post.new.run l₁ = some q ∧ q.state = some State.Draft

/-- History shape forced by being in `PendingReview` with count 0: a
`request_review` with no `reject` after it. -/
def PendingZeroHist (ops : List Op) : Prop :=
  ∃ l₁ l₂ : List Op, ops = l₁ ++ Op.request_review :: l₂ ∧ Op.reject ∉ l₂

/-- History shape forced by being in `PendingReview` with count 1: a
`request_review` then an `approve`, with no `reject` in between nor after. -/
def PendingOneHist (ops : List Op) : Prop :=
  ∃ l₁ l₂ l₃ : List Op,
    ops = l₁ ++ Op.request_review :: (l₂ ++ Op.approve :: l₃) ∧
    Op.reject ∉ l₂ ∧ Op.reject ∉ l₃

theorem run_append (l₁ l₂ : List Op) :
    ∀ p : Post, p.run (l₁ ++ l₂) = (p.run l₁).bind (fun q => q.run l₂) := by
  induction l₁ with
  | nil => intro p; rfl
  | cons op l₁ ih =>
    intro p
    simp only [List.cons_append, Post.run]
    cases p.step op with
    | none => rfl
    | some q => exact ih q

theorem pendingZero_extend {ops : List Op} {op : Op}
    (h : PendingZeroHist ops) (hop : op ≠ Op.reject) :
    PendingZeroHist (ops ++ [op]) := by
  obtain ⟨l₁, l₂, rfl, hrej⟩ := h
  refine ⟨l₁, l₂ ++ [op], by simp, ?_⟩
  simp only [List.mem_append, List.mem_singleton]
  rintro (h | h)
  · exact hrej h
  · exact hop h.symm

theorem pendingOne_extend {ops : List Op} {op : Op}
    (h : PendingOneHist ops) (hop : op ≠ Op.reject) :
    PendingOneHist (ops ++ [op]) := by
  obtain ⟨l₁, l₂, l₃, rfl, hrej₂, hrej₃⟩ := h
  refine ⟨l₁, l₂, l₃ ++ [op], by simp, hrej₂, ?_⟩
  simp only [List.mem_append, List.mem_singleton]
  rintro (h | h)
  · exact hrej₃ h
  · exact hop h.symm

theorem pendingZero_approve {ops : List Op} (h : PendingZeroHist ops) :
    PendingOneHist (ops ++ [Op.approve]) := by
  obtain ⟨l₁, l₂, rfl, hrej⟩ := h
  exact ⟨l₁, l₂, [], by simp, hrej, by simp⟩

theorem pendingOne_approve {ops : List Op} (h : PendingOneHist ops) :
    ApprovalPattern (ops ++ [Op.approve]) := by
  obtain ⟨l₁, l₂, l₃, rfl, hrej₂, hrej₃⟩ := h
  exact ⟨l₁, l₂, l₃, [], by simp, hrej₂, hrej₃⟩

theorem pattern_extend {ops : List Op} (op : Op) (h : ApprovalPattern ops) :
    ApprovalPattern (ops ++ [op]) := by
  obtain ⟨l₁, l₂, l₃, l₄, rfl, hrej₂, hrej₃⟩ := h
  exact ⟨l₁, l₂, l₃, l₄ ++ [op], by simp, hrej₂, hrej₃⟩

theorem draftText_extend {ops : List Op} (op : Op) (h : DraftTextAdded ops) :
    DraftTextAdded (ops ++ [op]) := by
  obtain ⟨l₁, t, l₂, q, rfl, ht, hrun, hst⟩ := h
  exact ⟨l₁, t, l₂ ++ [op], q, by simp, ht, hrun, hst⟩

end oop

namespace oop

/-- History facts forced by the current state and content of the post. -/
def HistInv (ops : List Op) (p : Post) : Prop :=
  (p.state = some (State.PendingReview 0) → PendingZeroHist ops) ∧
  (p.state = some (State.PendingReview 1) → PendingOneHist ops) ∧
  (p.state = some State.Published → ApprovalPattern ops) ∧
  (p.content ≠ "" → DraftTextAdded ops)

theorem hist_inv (ops : List Op) :
    ∀ p : Post, Post.new.run ops = some p → HistInv ops p := by
  induction ops using List.reverseRecOn with
  | nil =>
    intro p h
    simp only [Post.run, Option.some.injEq] at h
    subst h
    exact ⟨fun h1 => by simp [Post.new] at h1, fun h2 => by simp [Post.new] at h2,
      fun h3 => by simp [Post.new] at h3, fun h4 => absurd rfl h4⟩
  | append_singleton ops op ih =>
    intro p h
    rw [run_append] at h
    cases hq : Post.new.run ops with
    | none => rw [hq] at h; exact absurd h (by simp)
    | some q =>
      rw [hq] at h
      simp only [Option.some_bind] at h
      have hIH := ih q hq
      have hPI := reachable_postInv ⟨ops, hq⟩
      obtain ⟨st, c⟩ := q
      match st with
      | none => exact absurd hPI (by simp [PostInv])
      | some State.Draft =>
        cases op with
        | add_text t =>
          simp only [Post.run, Post.step, Post.add_text, State.add_text,
            Option.some_bind, Option.some.injEq] at h
          subst h
          refine ⟨fun h1 => by simp at h1, fun h2 => by simp at h2,
            fun h3 => by simp at h3, fun h4 => ?_⟩
          by_cases hc : c = ""
          · subst hc
            have ht : t ≠ "" := by simpa using h4
            exact ⟨ops, t, [], Post.mk (some State.Draft) "", rfl, ht, hq, rfl⟩
          · exact draftText_extend _ (hIH.2.2.2 hc)
        | request_review =>
          simp only [Post.run, Post.step, Post.request_review, State.request_review,
            Option.some_bind, Option.some.injEq] at h
          subst h
          exact ⟨fun _ => ⟨ops, [], rfl, by simp⟩, fun h2 => by simp at h2,
            fun h3 => by simp at h3, fun h4 => draftText_extend _ (hIH.2.2.2 h4)⟩
        | approve =>
          simp only [Post.run, Post.step, Post.approve, State.approve,
            Option.some_bind, Option.some.injEq] at h
          subst h
          exact ⟨fun h1 => by simp at h1, fun h2 => by simp at h2,
            fun h3 => by simp at h3, fun h4 => draftText_extend _ (hIH.2.2.2 h4)⟩
        | reject =>
          simp only [Post.run, Post.step, Post.reject, State.reject,
            Option.some_bind, Option.some.injEq] at h
          subst h
          exact ⟨fun h1 => by simp at h1, fun h2 => by simp at h2,
            fun h3 => by simp at h3, fun h4 => draftText_extend _ (hIH.2.2.2 h4)⟩
      | some (State.PendingReview a) =>
        have ha : a ≤ 1 := by simpa [PostInv] using hPI
        rcases Nat.le_one_iff_eq_zero_or_eq_one.mp ha with rfl | rfl
        · cases op with
          | add_text t =>
            simp only [Post.run, Post.step, Post.add_text, State.add_text,
              Option.some_bind, Option.some.injEq] at h
            subst h
            exact ⟨fun _ => pendingZero_extend (hIH.1 rfl) (by simp),
              fun h2 => by simp at h2, fun h3 => by simp at h3,
              fun h4 => draftText_extend _ (hIH.2.2.2 h4)⟩
          | request_review =>
            simp only [Post.run, Post.step, Post.request_review, State.request_review,
              Option.some_bind, Option.some.injEq] at h
            subst h
            exact ⟨fun _ => pendingZero_extend (hIH.1 rfl) (by simp),
              fun h2 => by simp at h2, fun h3 => by simp at h3,
              fun h4 => draftText_extend _ (hIH.2.2.2 h4)⟩
          | approve =>
            simp only [Post.run, Post.step, Post.approve, State.approve,
              Option.some_bind, Option.some.injEq] at h
            norm_num at h
            subst h
            exact ⟨fun h1 => by simp at h1, fun _ => pendingZero_approve (hIH.1 rfl),
              fun h3 => by simp at h3, fun h4 => draftText_extend _ (hIH.2.2.2 h4)⟩
          | reject =>
            simp only [Post.run, Post.step, Post.reject, State.reject,
              Option.some_bind, Option.some.injEq] at h
            subst h
            exact ⟨fun h1 => by simp at h1, fun h2 => by simp at h2,
              fun h3 => by simp at h3, fun h4 => draftText_extend _ (hIH.2.2.2 h4)⟩
        · cases op with
          | add_text t =>
            simp only [Post.run, Post.step, Post.add_text, State.add_text,
              Option.some_bind, Option.some.injEq] at h
            subst h
            exact ⟨fun h1 => by simp at h1,
              fun _ => pendingOne_extend (hIH.2.1 rfl) (by simp),
              fun h3 => by simp at h3, fun h4 => draftText_extend _ (hIH.2.2.2 h4)⟩
          | request_review =>
            simp only [Post.run, Post.step, Post.request_review, State.request_review,
              Option.some_bind, Option.some.injEq] at h
            subst h
            exact ⟨fun h1 => by simp at h1,
              fun _ => pendingOne_extend (hIH.2.1 rfl) (by simp),
              fun h3 => by simp at h3, fun h4 => draftText_extend _ (hIH.2.2.2 h4)⟩
          | approve =>
            simp only [Post.run, Post.step, Post.approve, State.approve,
              Option.some_bind, Option.some.injEq] at h
            norm_num at h
            subst h
            exact ⟨fun h1 => by simp at h1, fun h2 => by simp at h2,
              fun _ => pendingOne_approve (hIH.2.1 rfl),
              fun h4 => draftText_extend _ (hIH.2.2.2 h4)⟩
          | reject =>
            simp only [Post.run, Post.step, Post.reject, State.reject,
              Option.some_bind, Option.some.injEq] at h
            subst h
            exact ⟨fun h1 => by simp at h1, fun h2 => by simp at h2,
              fun h3 => by simp at h3, fun h4 => draftText_extend _ (hIH.2.2.2 h4)⟩
      | some State.Published =>
        cases op with
        | add_text t =>
          simp only [Post.run, Post.step, Post.add_text, State.add_text,
            Option.some_bind, Option.some.injEq] at h
          subst h
          exact ⟨fun h1 => by simp at h1, fun h2 => by simp at h2,
            fun _ => pattern_extend _ (hIH.2.2.1 rfl),
            fun h4 => draftText_extend _ (hIH.2.2.2 h4)⟩
        | request_review =>
          simp only [Post.run, Post.step, Post.request_review, State.request_review,
            Option.some_bind, Option.some.injEq] at h
          subst h
          exact ⟨fun h1 => by simp at h1, fun h2 => by simp at h2,
            fun _ => pattern_extend _ (hIH.2.2.1 rfl),
            fun h4 => draftText_extend _ (hIH.2.2.2 h4)⟩
        | approve =>
          simp only [Post.run, Post.step, Post.approve, State.approve,
            Option.some_bind, Option.some.injEq] at h
          subst h
          exact ⟨fun h1 => by simp at h1, fun h2 => by simp at h2,
            fun _ => pattern_extend _ (hIH.2.2.1 rfl),
            fun h4 => draftText_extend _ (hIH.2.2.2 h4)⟩
        | reject =>
          simp only [Post.run, Post.step, Post.reject, State.reject,
            Option.some_bind, Option.some.injEq] at h
          subst h
          exact ⟨fun h1 => by simp at h1, fun h2 => by simp at h2,
            fun _ => pattern_extend _ (hIH.2.2.1 rfl),
            fun h4 => draftText_extend _ (hIH.2.2.2 h4)⟩

end oop

section Temporal

open oop

/-- C2: on any call sequence from `Post::new()`, `content()` observes a
non-empty string only if the sequence contains a `request_review` followed
by two `approve`s with no `reject` in between, and some non-empty text was
added by an `add_text` issued while the post was in `Draft`; before such a
pattern completes the observation is `""`. -/
theorem oop_content_visible_requires_pattern (ops : List Op) (p : Post)
    (s : String) (hrun : Post.new.run ops = some p)
    (hc : p.content? = some s) (hs : s ≠ "") :
    ApprovalPattern ops ∧ DraftTextAdded ops := by
  have hi := hist_inv ops p hrun
  cases hst : p.state with
  | none => simp [Post.content?, hst] at hc
  | some st =>
    simp only [Post.content?, hst, Option.some.injEq] at hc
    cases st with
    | Draft => exact absurd hc.symm hs
    | PendingReview a => exact absurd hc.symm hs
    | Published =>
      refine ⟨hi.2.2.1 hst, hi.2.2.2 ?_⟩
      rw [State.content] at hc
      rw [← hc] at hs
      exact hs

/-- Witness for `oop_content_visible_requires_pattern`: the sequence
`add_text "a"; request_review(); approve(); approve()` publishes and
observes `"a"`, and indeed exhibits the approval pattern and a draft-stage
text addition. -/
theorem oop_content_visible_requires_pattern_witness :
    Post.new.run [Op.add_text "a", Op.request_review, Op.approve, Op.approve]
      = some (Post.mk (some State.Published) "a") ∧
    (Post.mk (some State.Published) "a").content? = some "a" ∧
    ("a" : String) ≠ "" ∧
    (ApprovalPattern [Op.add_text "a", Op.request_review, Op.approve, Op.approve] ∧
      DraftTextAdded [Op.add_text "a", Op.request_review, Op.approve, Op.approve]) :=
  ⟨by decide, rfl, by decide,
    oop_content_visible_requires_pattern
      [Op.add_text "a", Op.request_review, Op.approve, Op.approve]
      (Post.mk (some State.Published) "a") "a" (by decide) rfl (by decide)⟩

end Temporal
